import Mathlib

/-!
Verification development for the memc process-memory inspector.

The definitions below are a shallow embedding of the C++ core:
`src/maps_parser.cpp`, `src/smaps_parser.cpp`, `src/collector.cpp`,
`src/sampler.cpp` and `include/memc/region.h`.  Machine `uint64_t`
arithmetic is modelled as `Nat` with explicit reduction modulo `2 ^ 64`;
C++ `std::optional` becomes `Option`; file access becomes an explicit
`Option String` argument holding the text the file would contain (or
`none` when the file cannot be opened).
-/

namespace Memc

/-- `2 ^ 64`, the modulus of the C++ `uint64_t` fields. -/
def U64 : Nat := 2 ^ 64

/-- Wrapping `uint64_t` subtraction `a - b`, as in `end_addr - start_addr`. -/
def u64sub (a b : Nat) : Nat := (a + (U64 - b % U64)) % U64

/-- The whitespace class used by `sscanf` conversions (C `isspace`). -/
def isSpaceChar (c : Char) : Bool :=
  c == ' ' || c == '\t' || c == '\n' || c == '\x0b' || c == '\x0c' || c == '\r'

/-- Value of a hexadecimal digit, `none` for non-digits (C `isxdigit`). -/
def hexDigitVal (c : Char) : Option Nat :=
  if '0' ≤ c ∧ c ≤ '9' then some (c.toNat - '0'.toNat)
  else if 'a' ≤ c ∧ c ≤ 'f' then some (c.toNat - 'a'.toNat + 10)
  else if 'A' ≤ c ∧ c ≤ 'F' then some (c.toNat - 'A'.toNat + 10)
  else none

/-- Value of a decimal digit, `none` for non-digits. -/
def decDigitVal (c : Char) : Option Nat :=
  if '0' ≤ c ∧ c ≤ '9' then some (c.toNat - '0'.toNat) else none

/-- `true` when the character is a hexadecimal digit (C `isxdigit`). -/
def isHexDigitChar (c : Char) : Bool := (hexDigitVal c).isSome

/-- Accumulates a maximal run of digits, returning the value and the rest. -/
def scanDigits (dv : Char → Option Nat) (base : Nat) : List Char → Nat → Nat × List Char
  | [], acc => (acc, [])
  | c :: rest, acc =>
    match dv c with
    | some d => scanDigits dv base rest (acc * base + d)
    | none => (acc, c :: rest)

/-- Reads one unsigned number; fails when no leading digit is present. -/
def scanUnsigned (dv : Char → Option Nat) (base : Nat) (cs : List Char) :
    Option (Nat × List Char) :=
  match cs with
  | [] => none
  | c :: rest =>
    match dv c with
    | some d => some (scanDigits dv base rest d)
    | none => none

/-- Hexadecimal number body with the optional `0x`/`0X` passed over when a
digit follows, as the C library number scanner accepts for `%lx`. -/
def scanHexBody (cs : List Char) : Option (Nat × List Char) :=
  match cs with
  | '0' :: x :: c :: rest =>
    if (x = 'x' ∨ x = 'X') ∧ isHexDigitChar c = true then
      scanUnsigned hexDigitVal 16 (c :: rest)
    else
      scanUnsigned hexDigitVal 16 ('0' :: x :: c :: rest)
  | _ => scanUnsigned hexDigitVal 16 cs

/-- Optional sign handling for `%lx`/`%lu`: the scanned magnitude is reduced
into the `uint64_t` range, a leading minus wrapping the value. -/
def scanWithSign (body : List Char → Option (Nat × List Char)) (cs : List Char) :
    Option (Nat × List Char) :=
  match cs with
  | '+' :: rest => (body rest).map (fun vr => (vr.1 % U64, vr.2))
  | '-' :: rest => (body rest).map (fun vr => ((U64 - vr.1 % U64) % U64, vr.2))
  | _ => (body cs).map (fun vr => (vr.1 % U64, vr.2))

/-- The `%lx` conversion: skip whitespace, then a signed hexadecimal number. -/
def convHex (cs : List Char) : Option (Nat × List Char) :=
  scanWithSign scanHexBody (cs.dropWhile isSpaceChar)

/-- The `%lu` conversion: skip whitespace, then a signed decimal number. -/
def convDec (cs : List Char) : Option (Nat × List Char) :=
  scanWithSign (scanUnsigned decDigitVal 10) (cs.dropWhile isSpaceChar)

/-- The `%Ns` conversion: skip whitespace, then at most `width` non-space
characters; fails only at end of input. -/
def convStr (width : Nat) (cs : List Char) : Option (String × List Char) :=
  let cs2 := cs.dropWhile isSpaceChar
  match cs2 with
  | [] => none
  | _ =>
    let tok := (cs2.takeWhile (fun c => !isSpaceChar c)).take width
    some (tok.asString, cs2.drop tok.length)

/-- A literal character in the `sscanf` format: must match exactly. -/
def expectChar (c : Char) (cs : List Char) : Option (List Char) :=
  match cs with
  | d :: rest => if d = c then some rest else none
  | [] => none

/-- The closed set of region categories (`RegionType` in `region.h`). -/
inductive RegionType
  | HEAP
  | STACK
  | CODE
  | SHARED_LIB
  | VDSO
  | VVAR
  | VSYSCALL
  | MAPPED_FILE
  | ANONYMOUS
  | UNKNOWN
deriving DecidableEq

/-- One parsed mapping (`MemoryRegion` in `region.h`), with the same fields
and the same defaults as the C++ aggregate initialisation. -/
structure MemoryRegion where
  start_addr : Nat := 0
  end_addr : Nat := 0
  permissions : String := ""
  offset : Nat := 0
  device : String := ""
  inode : Nat := 0
  pathname : String := ""
  type : RegionType := RegionType.UNKNOWN
  size_kb : Nat := 0
  rss_kb : Nat := 0
  pss_kb : Nat := 0
  shared_clean_kb : Nat := 0
  shared_dirty_kb : Nat := 0
  private_clean_kb : Nat := 0
  private_dirty_kb : Nat := 0
  swap_kb : Nat := 0
  has_smaps_data : Bool := false
deriving DecidableEq

/-- `MemoryRegion::size_bytes`: `end_addr - start_addr` in `uint64_t`. -/
def MemoryRegion.size_bytes (r : MemoryRegion) : Nat := u64sub r.end_addr r.start_addr

/-- `true` when `pat` occurs as a contiguous substring of the character
list, modelling `std::string::find(pat) != npos`. -/
def strContainsAux (pat : List Char) : List Char → Bool
  | [] => pat.isEmpty
  | c :: rest => pat.isPrefixOf (c :: rest) || strContainsAux pat rest

/-- `hay.find(pat) != std::string::npos`. -/
def strContains (hay pat : String) : Bool := strContainsAux pat.data hay.data

/-- `permissions.size() >= 3 && permissions[2] == 'x'`. -/
def hasExecBit (permissions : String) : Bool :=
  match permissions.data with
  | _ :: _ :: c :: _ => c == 'x'
  | _ => false

namespace MapsParser

/-- `MapsParser::classify_region`, the if-chain from `maps_parser.cpp`. -/
def classify_region (pathname permissions : String) : RegionType :=
  if pathname = "[heap]" then RegionType.HEAP
  else if strContains pathname "[stack" then RegionType.STACK
  else if pathname = "[vdso]" then RegionType.VDSO
  else if pathname = "[vvar]" then RegionType.VVAR
  else if pathname = "[vsyscall]" then RegionType.VSYSCALL
  else if pathname ≠ "" ∧ pathname.data.head? = some '/' then
    if strContains pathname ".so" then RegionType.SHARED_LIB
    else if hasExecBit permissions then RegionType.CODE
    else RegionType.MAPPED_FILE
  else if pathname = "" then
    if hasExecBit permissions then RegionType.CODE
    else RegionType.ANONYMOUS
  else RegionType.UNKNOWN

/-- The label-finding loop of `parse_line`: walk the raw line counting runs
of blanks, stopping at the first non-blank character after the fifth run. -/
def labelTail : List Char → Nat → Bool → List Char
  | [], _, _ => []
  | c :: rest, spaces, inSpace =>
    let isSp := c == ' ' || c == '\t'
    let spaces2 := if isSp = true ∧ inSpace = false then spaces + 1 else spaces
    if 5 ≤ spaces2 ∧ isSp = false then c :: rest
    else labelTail rest spaces2 isSp

/-- Trailing blank trimming applied to the extracted label. -/
def dropTrailingWs (cs : List Char) : List Char :=
  (cs.reverse.dropWhile (fun c => c == ' ' || c == '\t' || c == '\n' || c == '\r')).reverse

/-- Label extraction from the raw line, as in `parse_line` lines 90-119. -/
def extractLabel (cs : List Char) : String :=
  let tl := labelTail cs 0 false
  let tl2 := tl.dropWhile (fun c => c == ' ' || c == '\t')
  (dropTrailingWs tl2).asString

/-- `MapsParser::parse_line`: the `sscanf("%lx-%lx %4s %lx %15s %lu")`
chain; all six conversions must succeed, then the label is extracted,
the region classified and its size computed. -/
def parse_line (line : String) : Option MemoryRegion :=
  match convHex line.data with
  | none => none
  | some (startv, cs1) =>
    match expectChar '-' cs1 with
    | none => none
    | some cs2 =>
      match convHex cs2 with
      | none => none
      | some (endv, cs3) =>
        match convStr 4 cs3 with
        | none => none
        | some (perms, cs4) =>
          match convHex cs4 with
          | none => none
          | some (offsetv, cs5) =>
            match convStr 15 cs5 with
            | none => none
            | some (dev, cs6) =>
              match convDec cs6 with
              | none => none
              | some (inodev, _) =>
                some { start_addr := startv, end_addr := endv, permissions := perms,
                       offset := offsetv, device := dev, inode := inodev,
                       pathname := extractLabel line.data,
                       type := classify_region (extractLabel line.data) perms,
                       size_kb := u64sub endv startv / 1024 }

end MapsParser

/-- `std::getline` splitting of a whole file into lines. -/
def splitLinesAux : List Char → List Char → List String
  | [], acc => if acc.isEmpty then [] else [acc.reverse.asString]
  | c :: rest, acc =>
    if c = '\n' then acc.reverse.asString :: splitLinesAux rest []
    else splitLinesAux rest (c :: acc)

/-- The lines `std::getline` yields from a string. -/
def getlineSplit (s : String) : List String := splitLinesAux s.data []

namespace MapsParser

/-- The line loop of `MapsParser::parse_from_string`: skip empty lines,
keep the successfully parsed ones in order. -/
def mapsParseLines : List String → List MemoryRegion
  | [] => []
  | l :: rest =>
    if l = "" then mapsParseLines rest
    else
      match parse_line l with
      | some r => r :: mapsParseLines rest
      | none => mapsParseLines rest

/-- `MapsParser::parse_from_string`. -/
def parse_from_string (content : String) : List MemoryRegion :=
  mapsParseLines (getlineSplit content)

end MapsParser

namespace SmapsParser

/-- The header test of the smaps line loop:
`!line.empty() && std::isxdigit(line[0])`. -/
def isHeaderLine (l : String) : Bool :=
  match l.data with
  | [] => false
  | c :: _ => isHexDigitChar c

/-- The value scan of `apply_detail_line`: `sscanf(value_part, " %lu", &value)`
with the result left at 0 when the conversion fails (the return value of
`sscanf` is ignored in the C++). -/
def scanDetailValue (cs : List Char) : Nat :=
  match convDec cs with
  | some (v, _) => v
  | none => 0

/-- `SmapsParser::apply_detail_line`: split at the first colon, scan the
value, and update the field selected by exact match on the key. -/
def apply_detail_line (line : String) (r : MemoryRegion) : MemoryRegion :=
  let cs := line.data
  let keyChars := cs.takeWhile (fun c => c ≠ ':')
  if keyChars.length = cs.length then r
  else
    let key := keyChars.asString
    let value := scanDetailValue (cs.drop (keyChars.length + 1))
    if key = "Size" then { r with size_kb := value }
    else if key = "Rss" then { r with rss_kb := value }
    else if key = "Pss" then { r with pss_kb := value }
    else if key = "Shared_Clean" then { r with shared_clean_kb := value }
    else if key = "Shared_Dirty" then { r with shared_dirty_kb := value }
    else if key = "Private_Clean" then { r with private_clean_kb := value }
    else if key = "Private_Dirty" then { r with private_dirty_kb := value }
    else if key = "Swap" then { r with swap_kb := value }
    else r

/-- The line loop of `SmapsParser::parse_from_string`.  The accumulator is
kept reversed so that its head is the region `current_idx` points at (the
most recently pushed one); detail lines are applied to it.  A header line
that fails to parse pushes nothing and leaves `current_idx` alone. -/
def smapsLinesRev : List String → List MemoryRegion → List MemoryRegion
  | [], acc => acc.reverse
  | l :: rest, acc =>
    if l = "" then smapsLinesRev rest acc
    else if isHeaderLine l then
      match MapsParser.parse_from_string (l ++ "\n") with
      | [] => smapsLinesRev rest acc
      | r :: _ => smapsLinesRev rest ({ r with has_smaps_data := true } :: acc)
    else
      match acc with
      | [] => smapsLinesRev rest []
      | cur :: olds => smapsLinesRev rest (apply_detail_line l cur :: olds)

/-- `SmapsParser::parse_from_string`. -/
def parse_from_string (content : String) : List MemoryRegion :=
  smapsLinesRev (getlineSplit content) []

/-- The `unordered_map` lookup built by `enrich`: entries are inserted in
index order with `smaps_lookup[start] = i`, so for a duplicated start
address the later entry wins — hence the search over the reversed list. -/
def lookupDetail (ds : List MemoryRegion) (a : Nat) : Option MemoryRegion :=
  ds.reverse.find? (fun d => d.start_addr == a)

/-- The per-region merge step of `enrich`: when a detail entry with the same
start address exists, copy its seven numeric fields and set the flag. -/
def enrichOne (ds : List MemoryRegion) (r : MemoryRegion) : MemoryRegion :=
  match lookupDetail ds r.start_addr with
  | none => r
  | some sr =>
    { r with rss_kb := sr.rss_kb, pss_kb := sr.pss_kb,
             shared_clean_kb := sr.shared_clean_kb,
             shared_dirty_kb := sr.shared_dirty_kb,
             private_clean_kb := sr.private_clean_kb,
             private_dirty_kb := sr.private_dirty_kb,
             swap_kb := sr.swap_kb, has_smaps_data := true }

/-- `SmapsParser::enrich`.  The smaps file is modelled as `Option String`
(`none` when `/proc/<pid>/smaps` cannot be opened).  Returns the C++
`bool` result together with the (possibly updated) region list. -/
def enrich (smapsSrc : Option String) (regions : List MemoryRegion) :
    Bool × List MemoryRegion :=
  match smapsSrc with
  | none => (false, regions)
  | some content => (true, regions.map (enrichOne (parse_from_string content)))

/-- The detail entry `enrich smapsSrc` would use for start address `a`. -/
def detailFor (smapsSrc : Option String) (a : Nat) : Option MemoryRegion :=
  match smapsSrc with
  | none => none
  | some content => lookupDetail (parse_from_string content) a

end SmapsParser

/-- One observation of a process (`ProcessSnapshot` in `region.h`). -/
structure ProcessSnapshot where
  pid : Nat := 0
  timestamp_ms : Nat := 0
  regions : List MemoryRegion := []
deriving DecidableEq

/-- `DataCollector::collect_once`.  The maps and smaps files are modelled as
`Option String` sources; `pid` and the already-taken timestamp are passed
in.  Fails exactly when the maps source cannot be obtained; an smaps
failure inside `enrich` is ignored (its `bool` result is discarded). -/
def collect_once (mapsSrc smapsSrc : Option String) (use_smaps : Bool)
    (pid ts : Nat) : Option ProcessSnapshot :=
  match mapsSrc with
  | none => none
  | some content =>
    let regions := MapsParser.parse_from_string content
    let regions2 := if use_smaps then (SmapsParser.enrich smapsSrc regions).2 else regions
    some { pid := pid, timestamp_ms := ts, regions := regions2 }

/-- `Sampler::take_snapshot`.  Transcribed from `sampler.cpp` lines 153-167:
the snapshot starts with pid, timestamp and an empty region list, and when
`use_smaps` is set `SmapsParser::enrich` is run on that (empty) list.  The
maps source is an argument for comparison with `collect_once`, but the C++
body never reads it. -/
def take_snapshot (_mapsSrc smapsSrc : Option String) (use_smaps : Bool)
    (pid ts : Nat) : ProcessSnapshot :=
  let snapshot : ProcessSnapshot := { pid := pid, timestamp_ms := ts, regions := [] }
  if use_smaps then
    { snapshot with regions := (SmapsParser.enrich smapsSrc snapshot.regions).2 }
  else snapshot

/-- The history-buffer update of `Sampler::sample_loop` lines 121-126: when
bounded and at capacity, erase the front (oldest) element, then append. -/
def historyStep (maxSnapshots : Nat) (buf : List ProcessSnapshot)
    (s : ProcessSnapshot) : List ProcessSnapshot :=
  if 0 < maxSnapshots ∧ maxSnapshots ≤ buf.length then buf.drop 1 ++ [s]
  else buf ++ [s]

/-- Repeated history insertion: one `historyStep` per loop tick. -/
def historyInsertAll (maxSnapshots : Nat) (buf : List ProcessSnapshot) :
    List ProcessSnapshot → List ProcessSnapshot
  | [] => buf
  | s :: rest => historyInsertAll maxSnapshots (historyStep maxSnapshots buf s) rest

/-- Interleaving state of one `Sampler` with its background loop: the
atomic `running_` flag, whether the loop is inside the locked body of one
iteration, whether `sample_loop` has returned, whether `stop()`'s join has
returned, plus the observable shared state (history and a count of
observer invocations). -/
structure SamplerState where
  running : Bool
  inBody : Bool
  loopExited : Bool
  stopReturned : Bool
  history : List ProcessSnapshot
  observerCalls : Nat
deriving DecidableEq

/-- Atomic events of the sampler and of the thread calling `stop()`. -/
inductive SamplerEvent
  | checkTick
  | loopBody (s : ProcessSnapshot) (observers : Nat)
  | loopExit
  | stopClearFlag
  | stopJoinDone
deriving DecidableEq

/-- One interleaved step.  `checkTick` is the loop loading `running_` as
true and committing to an iteration; `loopBody` is the locked body (history
update and synchronous observer callbacks) — it is enabled even after
`running_` was cleared, since the flag was already read; `loopExit` is the
loop observing a cleared flag and returning; `stopClearFlag` is
`running_.store(false)`; `stopJoinDone` is `thread_.join()` returning,
which the join semantics allow only after the loop function has exited. -/
def samplerStep (maxSnapshots : Nat) (st : SamplerState) :
    SamplerEvent → Option SamplerState
  | SamplerEvent.checkTick =>
    if st.running = true ∧ st.inBody = false ∧ st.loopExited = false then
      some { st with inBody := true }
    else none
  | SamplerEvent.loopBody s n =>
    if st.inBody = true then
      some { st with inBody := false,
                     history := historyStep maxSnapshots st.history s,
                     observerCalls := st.observerCalls + n }
    else none
  | SamplerEvent.loopExit =>
    if st.running = false ∧ st.inBody = false ∧ st.loopExited = false then
      some { st with loopExited := true }
    else none
  | SamplerEvent.stopClearFlag => some { st with running := false }
  | SamplerEvent.stopJoinDone =>
    if st.loopExited = true ∧ st.stopReturned = false then
      some { st with stopReturned := true }
    else none

/-- Runs a sequence of interleaved events; `none` when some event is not
enabled at its state. -/
def samplerRun (maxSnapshots : Nat) : SamplerState → List SamplerEvent → Option SamplerState
  | st, [] => some st
  | st, e :: rest =>
    match samplerStep maxSnapshots st e with
    | none => none
    | some st2 => samplerRun maxSnapshots st2 rest

/-- State right after `start()`: flag set, loop spawned, nothing recorded. -/
def samplerInit : SamplerState :=
  { running := true, inBody := false, loopExited := false, stopReturned := false,
    history := [], observerCalls := 0 }

/-- Modelled from the spec: the §4.1 decision order, first match wins —
heap exact match, stack-marker containment, vdso/vvar/vsyscall exact
matches, path-backed labels (shared-object marker, then execute bit),
empty labels split by execute bit, else unknown. -/
def classifySpec (label permissions : String) : RegionType :=
  if label = "[heap]" then RegionType.HEAP
  else if strContains label "[stack" then RegionType.STACK
  else if label = "[vdso]" then RegionType.VDSO
  else if label = "[vvar]" then RegionType.VVAR
  else if label = "[vsyscall]" then RegionType.VSYSCALL
  else if label.data.head? = some '/' then
    if strContains label ".so" then RegionType.SHARED_LIB
    else if hasExecBit permissions then RegionType.CODE
    else RegionType.MAPPED_FILE
  else if label = "" then
    if hasExecBit permissions then RegionType.CODE
    else RegionType.ANONYMOUS
  else RegionType.UNKNOWN

/-- The key of a detail line: the text before the first colon, or `none`
when the line has no colon. -/
def detailKey (line : String) : Option String :=
  let cs := line.data
  let keyChars := cs.takeWhile (fun c => c ≠ ':')
  if keyChars.length = cs.length then none else some keyChars.asString

/-- The numeric value a detail line carries after its colon. -/
def detailValue (line : String) : Nat :=
  let cs := line.data
  let keyChars := cs.takeWhile (fun c => c ≠ ':')
  SmapsParser.scanDetailValue (cs.drop (keyChars.length + 1))

/-- The effect a detail line is specified to have: set exactly the one
kilobyte field named by a recognized key (case-sensitive exact match) to
the scanned value, and change nothing otherwise. -/
def applyDetailSpec (line : String) (r : MemoryRegion) : MemoryRegion :=
  match detailKey line with
  | none => r
  | some key =>
    if key = "Size" then { r with size_kb := detailValue line }
    else if key = "Rss" then { r with rss_kb := detailValue line }
    else if key = "Pss" then { r with pss_kb := detailValue line }
    else if key = "Shared_Clean" then { r with shared_clean_kb := detailValue line }
    else if key = "Shared_Dirty" then { r with shared_dirty_kb := detailValue line }
    else if key = "Private_Clean" then { r with private_clean_kb := detailValue line }
    else if key = "Private_Dirty" then { r with private_dirty_kb := detailValue line }
    else if key = "Swap" then { r with swap_kb := detailValue line }
    else r

/-- A readable one-mapping coarse source used as a concrete test input. -/
def goodMaps : String := "400000-401000 r-xp 00000000 08:01 100 /bin/app\n"

/-- The region `parse_line` produces for the single line of `goodMaps`. -/
def sampleRegion : MemoryRegion :=
  { start_addr := 4194304, end_addr := 4198400, permissions := "r-xp",
    offset := 0, device := "08:01", inode := 100, pathname := "/bin/app",
    type := RegionType.CODE, size_kb := 4 }

/-- A `MemoryRegion` with every field at its default. -/
def emptyRegion : MemoryRegion := {}

/-- A sampler state in which `stop()` has returned with nothing recorded. -/
def stoppedState : SamplerState :=
  { running := false, inBody := false, loopExited := true, stopReturned := true,
    history := [], observerCalls := 0 }

/-- Invariant of every state reachable from `samplerInit`: `stop()` can
only have returned after the loop exited, and an exited loop is not in
the middle of an iteration body. -/
def reachInv (st : SamplerState) : Prop :=
  (st.stopReturned = true → st.loopExited = true) ∧
  (st.loopExited = true → st.inBody = false)

/-- A state whose loop has exited and is outside any iteration body. -/
def frozen (st : SamplerState) : Prop := st.loopExited = true ∧ st.inBody = false

/-! Theorems. -/

/-- The classifier and its specification agree pointwise. -/
theorem classify_region_eq_spec (l p : String) :
    MapsParser.classify_region l p = classifySpec l p := by
  have hcond : (l ≠ "" ∧ l.data.head? = some '/') ↔ (l.data.head? = some '/') := by
    constructor
    · exact fun h => h.2
    · intro h
      refine ⟨?_, h⟩
      intro he
      subst he
      simp at h
  simp only [MapsParser.classify_region, classifySpec, hcond]

/-- C3: classify is total and deterministic (it is a function), follows the
§4.1 decision order (pointwise equality with the spec-side waterfall
`classifySpec`), and satisfies every §8 example equation. -/
theorem classify_waterfall_and_examples :
    (∀ label permissions,
      MapsParser.classify_region label permissions = classifySpec label permissions) ∧
    MapsParser.classify_region "[heap]" "rw-p" = RegionType.HEAP ∧
    MapsParser.classify_region "[stack]" "rw-p" = RegionType.STACK ∧
    MapsParser.classify_region "[stack:123]" "rw-p" = RegionType.STACK ∧
    MapsParser.classify_region "/lib/libc.so.6" "r-xp" = RegionType.SHARED_LIB ∧
    MapsParser.classify_region "" "r-xp" = RegionType.CODE ∧
    MapsParser.classify_region "" "rw-p" = RegionType.ANONYMOUS ∧
    MapsParser.classify_region "/usr/bin/app" "r-xp" = RegionType.CODE ∧
    MapsParser.classify_region "/usr/bin/app" "r--p" = RegionType.MAPPED_FILE :=
  ⟨classify_region_eq_spec, rfl, rfl, rfl, rfl, rfl, rfl, rfl, rfl⟩

/-- The maps line loop is a `filterMap`: blank lines and lines the
line-parser rejects contribute nothing, each accepted line contributes
exactly one region, and input order is preserved. -/
theorem mapsParseLines_filterMap (ls : List String) :
    MapsParser.mapsParseLines ls
      = ls.filterMap (fun l => if l = "" then none else MapsParser.parse_line l) := by
  induction ls with
  | nil => rfl
  | cons l rest ih =>
    by_cases h : l = ""
    · simp [MapsParser.mapsParseLines, h, ih]
    · cases hp : MapsParser.parse_line l with
      | none => simp [MapsParser.mapsParseLines, h, hp, ih]
      | some r => simp [MapsParser.mapsParseLines, h, hp, ih]

/-- Every region the line parser yields has its detail fields at their
defaults: zero statistics and a cleared detail flag. -/
theorem parse_line_detail_absent (l : String) (r : MemoryRegion)
    (h : MapsParser.parse_line l = some r) :
    r.rss_kb = 0 ∧ r.pss_kb = 0 ∧ r.shared_clean_kb = 0 ∧ r.shared_dirty_kb = 0 ∧
    r.private_clean_kb = 0 ∧ r.private_dirty_kb = 0 ∧ r.swap_kb = 0 ∧
    r.has_smaps_data = false := by
  unfold MapsParser.parse_line at h
  repeat' split at h
  all_goals first
    | (injection h with h2; subst h2; exact ⟨rfl, rfl, rfl, rfl, rfl, rfl, rfl, rfl⟩)
    | exact absurd h (by simp)

/-- Every region of a coarse parse has its detail fields at their defaults. -/
theorem mapsParse_regions_detail_absent (content : String) :
    (MapsParser.parse_from_string content).all
      (fun r => !r.has_smaps_data && r.rss_kb == 0 && r.pss_kb == 0 &&
        r.shared_clean_kb == 0 && r.shared_dirty_kb == 0 && r.private_clean_kb == 0 &&
        r.private_dirty_kb == 0 && r.swap_kb == 0) = true := by
  rw [List.all_eq_true]
  intro r hr
  rw [MapsParser.parse_from_string, mapsParseLines_filterMap] at hr
  obtain ⟨l, hl, hfl⟩ := List.mem_filterMap.1 hr
  by_cases he : l = ""
  · rw [if_pos he] at hfl
    exact absurd hfl (by simp)
  · rw [if_neg he] at hfl
    obtain ⟨h1, h2, h3, h4, h5, h6, h7, h8⟩ := parse_line_detail_absent l r hfl
    simp [h1, h2, h3, h4, h5, h6, h7, h8]

/-- C2: `collect_once` is unavailable exactly when the coarse maps source
is unavailable; when the coarse parse succeeds and detail was requested
but the detail source is unavailable, the enrichment failure is not
propagated — the snapshot is still returned, carrying the coarse region
list with no detail fields set. -/
theorem collect_once_failure_asymmetry (smapsSrc : Option String) (d : Bool)
    (pid ts : Nat) (content : String) :
    collect_once none smapsSrc d pid ts = none ∧
    (collect_once (some content) smapsSrc d pid ts).isSome = true ∧
    collect_once (some content) none true pid ts
      = some { pid := pid, timestamp_ms := ts,
               regions := MapsParser.parse_from_string content } ∧
    (MapsParser.parse_from_string content).all
      (fun r => !r.has_smaps_data && r.rss_kb == 0 && r.pss_kb == 0 &&
        r.shared_clean_kb == 0 && r.shared_dirty_kb == 0 && r.private_clean_kb == 0 &&
        r.private_dirty_kb == 0 && r.swap_kb == 0) = true :=
  ⟨rfl, rfl, rfl, mapsParse_regions_detail_absent content⟩

/-- C6: the coarse parse never fails as a whole — it is the `filterMap` of
the line parser over the input lines, so blank lines yield no region,
six-field lines yield exactly one region each in input order, and failing
lines are silently dropped; in particular "not a valid line" is rejected
and one good line plus one malformed line yield exactly one region. -/
theorem parse_silently_drops_malformed :
    (∀ content : String,
      MapsParser.parse_from_string content
        = (getlineSplit content).filterMap
            (fun l => if l = "" then none else MapsParser.parse_line l)) ∧
    MapsParser.parse_line "not a valid line" = none ∧
    (MapsParser.parse_from_string
        "400000-401000 r-xp 00000000 08:01 100 /bin/app\nnot a valid line\n").length = 1 :=
  ⟨fun _ => mapsParseLines_filterMap _, rfl, rfl⟩

/-- Any value a signed `sscanf` number conversion produces fits `uint64_t`. -/
theorem scanWithSign_lt {body : List Char → Option (Nat × List Char)} {cs : List Char}
    {v : Nat} {rest : List Char} (h : scanWithSign body cs = some (v, rest)) : v < U64 := by
  have hU : 0 < U64 := Nat.two_pow_pos 64
  unfold scanWithSign at h
  repeat' split at h
  all_goals (
    rw [Option.map_eq_some'] at h
    obtain ⟨⟨v0, r0⟩, hb, heq⟩ := h
    simp only at heq
    cases heq
    exact Nat.mod_lt _ hU)

/-- Any value the `%lx` conversion produces fits `uint64_t`. -/
theorem convHex_lt {cs : List Char} {v : Nat} {rest : List Char}
    (h : convHex cs = some (v, rest)) : v < U64 :=
  scanWithSign_lt h

/-- Wrapping `uint64_t` subtraction agrees with exact subtraction when no
underflow occurs. -/
theorem u64sub_of_le {a b : Nat} (hb : b ≤ a) (ha : a < U64) : u64sub a b = a - b := by
  have hbU : b < U64 := lt_of_le_of_lt hb ha
  unfold u64sub
  rw [Nat.mod_eq_of_lt hbU]
  have h1 : a + (U64 - b) = (a - b) + U64 := by omega
  rw [h1, Nat.add_mod_right]
  exact Nat.mod_eq_of_lt (by omega)

/-- Parsed regions carry addresses inside the `uint64_t` range and the
size the parser computed from them. -/
theorem parse_line_bounds (l : String) (r : MemoryRegion)
    (h : MapsParser.parse_line l = some r) :
    r.start_addr < U64 ∧ r.end_addr < U64 ∧
    r.size_kb = u64sub r.end_addr r.start_addr / 1024 := by
  unfold MapsParser.parse_line at h
  repeat' split at h
  all_goals first
    | (injection h with h2; subst h2;
       exact ⟨convHex_lt (by assumption), convHex_lt (by assumption), rfl⟩)
    | exact absurd h (by simp)

/-- C10: for every region the parser can produce — no check that the end
address is at least the start address — `size_bytes` is the difference
`end_addr - start_addr` computed in unsigned 64-bit arithmetic, hence a
natural number (always nonnegative), and equals the exact difference
whenever the end address is not below the start address. -/
theorem size_bytes_unsigned (line : String) (r : MemoryRegion)
    (h : MapsParser.parse_line line = some r) :
    r.start_addr < U64 ∧ r.end_addr < U64 ∧
    r.size_bytes = (r.end_addr + (U64 - r.start_addr)) % U64 ∧
    (r.start_addr ≤ r.end_addr → r.size_bytes = r.end_addr - r.start_addr) := by
  obtain ⟨hs, he, -⟩ := parse_line_bounds line r h
  refine ⟨hs, he, ?_, ?_⟩
  · unfold MemoryRegion.size_bytes u64sub
    rw [Nat.mod_eq_of_lt hs]
  · intro hle
    exact u64sub_of_le hle he

/-- Witness for C10 at the good line of `goodMaps`. -/
theorem size_bytes_unsigned_witness :
    MapsParser.parse_line "400000-401000 r-xp 00000000 08:01 100 /bin/app"
      = some sampleRegion ∧
    (sampleRegion.start_addr < U64 ∧ sampleRegion.end_addr < U64 ∧
     sampleRegion.size_bytes = (sampleRegion.end_addr + (U64 - sampleRegion.start_addr)) % U64 ∧
     (sampleRegion.start_addr ≤ sampleRegion.end_addr →
       sampleRegion.size_bytes = sampleRegion.end_addr - sampleRegion.start_addr)) :=
  ⟨by rfl,
   size_bytes_unsigned "400000-401000 r-xp 00000000 08:01 100 /bin/app" sampleRegion (by rfl)⟩

/-- The loop's history insertion keeps exactly the most recent elements:
inserting `xs` into a buffer of capacity `M` that is not over capacity
leaves the suffix of `buf ++ xs` that fits. -/
theorem historyInsertAll_eq_drop (M : Nat) (hM : 0 < M) :
    ∀ (xs buf : List ProcessSnapshot), buf.length ≤ M →
      historyInsertAll M buf xs = (buf ++ xs).drop (buf.length + xs.length - M) := by
  intro xs
  induction xs with
  | nil =>
    intro buf hb
    simp [historyInsertAll, Nat.sub_eq_zero_of_le hb]
  | cons x rest ih =>
    intro buf hb
    by_cases hc : M ≤ buf.length
    · cases buf with
      | nil =>
        exfalso
        rw [List.length_nil] at hc
        omega
      | cons b bt =>
        rw [List.length_cons] at hb hc
        have hstep : historyStep M (b :: bt) x = bt ++ [x] := by
          unfold historyStep
          rw [if_pos ⟨hM, by rw [List.length_cons]; omega⟩]
          rfl
        have hbt : (bt ++ [x]).length ≤ M := by
          rw [List.length_append, List.length_singleton]
          omega
        show historyInsertAll M (historyStep M (b :: bt) x) rest
          = ((b :: bt) ++ x :: rest).drop ((b :: bt).length + (x :: rest).length - M)
        rw [hstep, ih (bt ++ [x]) hbt]
        have e1 : (bt ++ [x]).length + rest.length - M = rest.length := by
          rw [List.length_append, List.length_singleton]
          omega
        have e2 : (b :: bt).length + (x :: rest).length - M = rest.length + 1 := by
          rw [List.length_cons, List.length_cons]
          omega
        rw [e1, e2, List.append_assoc, List.singleton_append, List.cons_append,
            List.drop_succ_cons]
    · push_neg at hc
      have hstep : historyStep M buf x = buf ++ [x] := by
        unfold historyStep
        rw [if_neg]
        intro hand
        omega
      have hb2 : (buf ++ [x]).length ≤ M := by
        rw [List.length_append, List.length_singleton]
        omega
      show historyInsertAll M (historyStep M buf x) rest
        = (buf ++ x :: rest).drop (buf.length + (x :: rest).length - M)
      rw [hstep, ih (buf ++ [x]) hb2]
      have e1 : (buf ++ [x]).length + rest.length = buf.length + (x :: rest).length := by
        rw [List.length_append, List.length_singleton, List.length_cons]
        omega
      rw [e1, List.append_assoc, List.singleton_append]

/-- History insertion never grows the buffer past its capacity. -/
theorem historyInsertAll_length_le (M : Nat) (hM : 0 < M)
    (xs buf : List ProcessSnapshot) (hb : buf.length ≤ M) :
    (historyInsertAll M buf xs).length ≤ M := by
  rw [historyInsertAll_eq_drop M hM xs buf hb]
  rw [List.length_drop, List.length_append]
  omega

/-- C4: with a positive capacity `N + 1`, inserting any sequence of
snapshots into an empty history leaves exactly the most recent `N + 1`
of them in insertion order (for `(N + 1) + k` inserts, the last `N + 1`,
oldest first), and after any prefix of the inserts the buffer length never
exceeds the capacity — strict FIFO eviction of the oldest on each insert
at capacity. -/
theorem history_strict_fifo (N : Nat) (xs : List ProcessSnapshot) (n : Nat) :
    historyInsertAll (N + 1) [] xs = xs.drop (xs.length - (N + 1)) ∧
    (historyInsertAll (N + 1) [] (xs.take n)).length ≤ N + 1 := by
  constructor
  · have h := historyInsertAll_eq_drop (N + 1) (Nat.succ_pos N) xs [] (by simp)
    simpa using h
  · exact historyInsertAll_length_le (N + 1) (Nat.succ_pos N) (xs.take n) [] (by simp)

/-- C7: enrichment is a frame-respecting merge — the output list pairs
with the input list element for element, every region keeps its start,
end, permissions, offset, device, inode, pathname, classification and
size, and each region equals its input unchanged when no detail entry
matches its start address, or the input with exactly the seven detail
fields and the detail flag copied in when one does. -/
theorem enrich_frame (smapsSrc : Option String) (regions : List MemoryRegion) :
    List.Forall₂ (fun r r2 =>
      (r2.start_addr = r.start_addr ∧ r2.end_addr = r.end_addr ∧
       r2.permissions = r.permissions ∧ r2.offset = r.offset ∧
       r2.device = r.device ∧ r2.inode = r.inode ∧
       r2.pathname = r.pathname ∧ r2.type = r.type ∧ r2.size_kb = r.size_kb) ∧
      r2 = (match SmapsParser.detailFor smapsSrc r.start_addr with
            | none => r
            | some sr =>
              { r with rss_kb := sr.rss_kb, pss_kb := sr.pss_kb,
                       shared_clean_kb := sr.shared_clean_kb,
                       shared_dirty_kb := sr.shared_dirty_kb,
                       private_clean_kb := sr.private_clean_kb,
                       private_dirty_kb := sr.private_dirty_kb,
                       swap_kb := sr.swap_kb, has_smaps_data := true }))
      regions (SmapsParser.enrich smapsSrc regions).2 := by
  cases smapsSrc with
  | none =>
    show List.Forall₂ _ regions regions
    rw [List.forall₂_same]
    intro x hx
    exact ⟨⟨rfl, rfl, rfl, rfl, rfl, rfl, rfl, rfl, rfl⟩, rfl⟩
  | some content =>
    show List.Forall₂ _ regions
      (regions.map (SmapsParser.enrichOne (SmapsParser.parse_from_string content)))
    rw [List.forall₂_map_right_iff, List.forall₂_same]
    intro x hx
    constructor
    · unfold SmapsParser.enrichOne
      cases SmapsParser.lookupDetail (SmapsParser.parse_from_string content) x.start_addr with
      | none => exact ⟨rfl, rfl, rfl, rfl, rfl, rfl, rfl, rfl, rfl⟩
      | some sr => exact ⟨rfl, rfl, rfl, rfl, rfl, rfl, rfl, rfl, rfl⟩
    · unfold SmapsParser.enrichOne SmapsParser.detailFor
      rfl

/-- C8: enrichment is idempotent — enriching a region list twice with
the same detail source yields exactly the list obtained by enriching it
once. -/
theorem enrich_idempotent (smapsSrc : Option String) (regions : List MemoryRegion) :
    (SmapsParser.enrich smapsSrc ((SmapsParser.enrich smapsSrc regions).2)).2
      = (SmapsParser.enrich smapsSrc regions).2 := by
  cases smapsSrc with
  | none => rfl
  | some content =>
    show (((regions.map _).map _) : List MemoryRegion) = _
    rw [List.map_map]
    apply List.map_congr_left
    intro r hr
    show SmapsParser.enrichOne _ (SmapsParser.enrichOne _ r) = SmapsParser.enrichOne _ r
    unfold SmapsParser.enrichOne
    cases hl : SmapsParser.lookupDetail (SmapsParser.parse_from_string content) r.start_addr with
    | none => simp [hl]
    | some sr => simp [hl]

/-- One interleaved step preserves the reachability invariant. -/
theorem reachInv_step {M : Nat} {st st2 : SamplerState} {e : SamplerEvent}
    (hinv : reachInv st) (h : samplerStep M st e = some st2) : reachInv st2 := by
  obtain ⟨i1, i2⟩ := hinv
  cases e <;> simp only [samplerStep] at h
  case checkTick =>
    split at h
    · rename_i hcond
      injection h with h2
      subst h2
      exact ⟨fun hs => absurd (i1 hs) (by simp [hcond.2.2]),
             fun hl => absurd hl (by simp [hcond.2.2])⟩
    · exact absurd h (by simp)
  case loopBody =>
    split at h
    · rename_i hcond
      injection h with h2
      subst h2
      exact ⟨fun hs => absurd (i2 (i1 hs)) (by simp [hcond]), fun hl => rfl⟩
    · exact absurd h (by simp)
  case loopExit =>
    split at h
    · rename_i hcond
      injection h with h2
      subst h2
      exact ⟨fun hs => rfl, fun hl => hcond.2.1⟩
    · exact absurd h (by simp)
  case stopClearFlag =>
    injection h with h2
    subst h2
    exact ⟨i1, i2⟩
  case stopJoinDone =>
    split at h
    · rename_i hcond
      injection h with h2
      subst h2
      exact ⟨fun hs => hcond.1, i2⟩
    · exact absurd h (by simp)

/-- Any interleaved run preserves the reachability invariant. -/
theorem reachInv_run {M : Nat} : ∀ (evs : List SamplerEvent) (st st2 : SamplerState),
    reachInv st → samplerRun M st evs = some st2 → reachInv st2 := by
  intro evs
  induction evs with
  | nil =>
    intro st st2 hinv h
    injection h with h2
    subst h2
    exact hinv
  | cons e rest ih =>
    intro st st2 hinv h
    rw [samplerRun] at h
    cases hs : samplerStep M st e with
    | none => rw [hs] at h; exact absurd h (by simp)
    | some stm =>
      rw [hs] at h
      exact ih stm st2 (reachInv_step hinv hs) h

/-- From a frozen state, no enabled event touches the history or fires an
observer, and the state stays frozen. -/
theorem frozen_step {M : Nat} {st st2 : SamplerState} {e : SamplerEvent}
    (hf : frozen st) (h : samplerStep M st e = some st2) :
    frozen st2 ∧ st2.history = st.history ∧ st2.observerCalls = st.observerCalls := by
  obtain ⟨f1, f2⟩ := hf
  cases e <;> simp only [samplerStep] at h
  case checkTick =>
    split at h
    · rename_i hcond
      exact absurd f1 (by simp [hcond.2.2])
    · exact absurd h (by simp)
  case loopBody =>
    split at h
    · rename_i hcond
      exact absurd hcond (by simp [f2])
    · exact absurd h (by simp)
  case loopExit =>
    split at h
    · rename_i hcond
      exact absurd f1 (by simp [hcond.2.2])
    · exact absurd h (by simp)
  case stopClearFlag =>
    injection h with h2
    subst h2
    exact ⟨⟨f1, f2⟩, rfl, rfl⟩
  case stopJoinDone =>
    split at h
    · injection h with h2
      subst h2
      exact ⟨⟨f1, f2⟩, rfl, rfl⟩
    · exact absurd h (by simp)

/-- From a frozen state, no run ever changes the history or the number of
observer invocations. -/
theorem frozen_run {M : Nat} : ∀ (evs : List SamplerEvent) (st st2 : SamplerState),
    frozen st → samplerRun M st evs = some st2 →
    st2.history = st.history ∧ st2.observerCalls = st.observerCalls := by
  intro evs
  induction evs with
  | nil =>
    intro st st2 hf h
    injection h with h2
    subst h2
    exact ⟨rfl, rfl⟩
  | cons e rest ih =>
    intro st st2 hf h
    rw [samplerRun] at h
    cases hs : samplerStep M st e with
    | none => rw [hs] at h; exact absurd h (by simp)
    | some stm =>
      rw [hs] at h
      obtain ⟨hf2, e1, e2⟩ := frozen_step hf hs
      obtain ⟨e3, e4⟩ := ih stm st2 hf2 h
      exact ⟨e3.trans e1, e4.trans e2⟩

/-- C5: in every interleaving of the sampling loop with the stopping
thread, once a reachable state has `stop()` returned (the join completed),
no continuation of the run appends to the history or invokes an observer
— every history mutation and observer call happens before `stop()`
returns. -/
theorem stop_completes_teardown (M : Nat) (evs1 evs2 : List SamplerEvent)
    (st1 st2 : SamplerState)
    (h1 : samplerRun M samplerInit evs1 = some st1)
    (hstop : st1.stopReturned = true)
    (h2 : samplerRun M st1 evs2 = some st2) :
    st2.history = st1.history ∧ st2.observerCalls = st1.observerCalls := by
  have hinit : reachInv samplerInit := by
    constructor <;> intro h <;> simp [samplerInit] at h
  have hinv1 : reachInv st1 := reachInv_run evs1 samplerInit st1 hinit h1
  have hf : frozen st1 := ⟨hinv1.1 hstop, hinv1.2 (hinv1.1 hstop)⟩
  exact frozen_run evs2 st1 st2 hf h2

/-- Witness for C5 on a concrete stop-exit-join interleaving. -/
theorem stop_completes_teardown_witness :
    (samplerRun 1 samplerInit
        [SamplerEvent.stopClearFlag, SamplerEvent.loopExit, SamplerEvent.stopJoinDone]
        = some stoppedState ∧
     stoppedState.stopReturned = true ∧
     samplerRun 1 stoppedState [SamplerEvent.stopClearFlag] = some stoppedState) ∧
    (stoppedState.history = stoppedState.history ∧
     stoppedState.observerCalls = stoppedState.observerCalls) :=
  ⟨⟨by decide, rfl, by decide⟩,
   stop_completes_teardown 1
     [SamplerEvent.stopClearFlag, SamplerEvent.loopExit, SamplerEvent.stopJoinDone]
     [SamplerEvent.stopClearFlag] stoppedState stoppedState (by decide) rfl (by decide)⟩

/-- The detail-line parser agrees with its one-field specification. -/
theorem apply_detail_line_eq_spec (line : String) (r : MemoryRegion) :
    SmapsParser.apply_detail_line line r = applyDetailSpec line r := by
  unfold SmapsParser.apply_detail_line applyDetailSpec detailKey detailValue
  by_cases h : (line.data.takeWhile (fun c => c ≠ ':')).length = line.data.length
  · rw [if_pos h, if_pos h]
  · rw [if_neg h, if_neg h]

/-- Detail lines ahead of any header line are ignored entirely. -/
theorem smapsLinesRev_skips_leading (ls rest : List String)
    (hls : ls.all (fun l => !SmapsParser.isHeaderLine l) = true) :
    SmapsParser.smapsLinesRev (ls ++ rest) [] = SmapsParser.smapsLinesRev rest [] := by
  induction ls with
  | nil => rfl
  | cons l ls2 ih =>
    simp only [List.all_cons, Bool.and_eq_true] at hls
    obtain ⟨h1, h2⟩ := hls
    have hh : SmapsParser.isHeaderLine l = false := by
      revert h1
      cases SmapsParser.isHeaderLine l <;> simp
    by_cases he : l = ""
    · simp only [List.cons_append, SmapsParser.smapsLinesRev, he, if_pos rfl]
      exact ih h2
    · simp only [List.cons_append, SmapsParser.smapsLinesRev, if_neg he, hh,
        Bool.false_eq_true, if_false]
      exact ih h2

/-- C9: a detail line sets exactly the one kilobyte field named by its
recognized key (case-sensitive exact match) to the value scanned after
the colon and changes no other field — `applyDetailSpec` writes that one
field by structure update — with "Rss:          132 kB" setting the
resident field to 132 only; an unrecognized key changes nothing (the
`applyDetailSpec` fallthrough); and detail lines before any header line
are ignored entirely by the block parser. -/
theorem detail_line_sets_exactly_named_field (line : String) (r : MemoryRegion)
    (ls rest : List String)
    (hls : ls.all (fun l => !SmapsParser.isHeaderLine l) = true) :
    SmapsParser.apply_detail_line line r = applyDetailSpec line r ∧
    SmapsParser.apply_detail_line "Rss:          132 kB" r = { r with rss_kb := 132 } ∧
    SmapsParser.smapsLinesRev (ls ++ rest) [] = SmapsParser.smapsLinesRev rest [] :=
  ⟨apply_detail_line_eq_spec line r, rfl, smapsLinesRev_skips_leading ls rest hls⟩

/-- Witness for C9 at concrete lines. -/
theorem detail_line_sets_exactly_named_field_witness :
    ((["Pss: 7 kB"] : List String).all (fun l => !SmapsParser.isHeaderLine l) = true) ∧
    (SmapsParser.apply_detail_line "Rss: 9 kB" emptyRegion
        = applyDetailSpec "Rss: 9 kB" emptyRegion ∧
     SmapsParser.apply_detail_line "Rss:          132 kB" emptyRegion
        = { emptyRegion with rss_kb := 132 } ∧
     SmapsParser.smapsLinesRev (["Pss: 7 kB"] ++ ["400000-401000 rw-p 00000000 00:00 0"]) []
        = SmapsParser.smapsLinesRev ["400000-401000 rw-p 00000000 00:00 0"] []) :=
  ⟨by decide,
   detail_line_sets_exactly_named_field "Rss: 9 kB" emptyRegion
     ["Pss: 7 kB"] ["400000-401000 rw-p 00000000 00:00 0"] (by decide)⟩

/-- C1 (code bug): `Sampler::take_snapshot` never reads the coarse maps
source, so the snapshot appended on every tick carries an empty region
list regardless of the source being readable — only pid and timestamp are
filled in — while the one-shot `collect_once` on the same readable source
yields the parsed (here one-element) region list.  This contradicts the
function's own documentation, which says it reads the per-process maps
listing. -/
theorem take_snapshot_ignores_maps :
    (∀ (mapsSrc smapsSrc : Option String) (use_smaps : Bool) (pid ts : Nat),
      (take_snapshot mapsSrc smapsSrc use_smaps pid ts).regions = []) ∧
    take_snapshot (some goodMaps) none false 42 7
      = { pid := 42, timestamp_ms := 7, regions := [] } ∧
    (collect_once (some goodMaps) none false 42 7).map (fun s => s.regions.length)
      = some 1 := by
  refine ⟨?_, rfl, rfl⟩
  intro mapsSrc smapsSrc use_smaps pid ts
  cases use_smaps with
  | false => rfl
  | true =>
    cases smapsSrc with
    | none => rfl
    | some c => rfl

end Memc
